import Mathlib

/-!
Shallow embedding of rasusa's `src/fastx.rs`.

The record stream delivered by the underlying parsing readers is modelled as a
`List (ReadItem α)`: each pull of the reader either yields a parsed record
(`ReadItem.good`) or a parse failure (`ReadItem.bad`); the end of the list is
end-of-stream (the reader leaves the record empty).  The output sink is a pure
character accumulator (the code's write-error path, which depends on the
external sink failing, is not exercised by any claim and the sink is modelled
as infallible).  The wanted index set `HashSet<u32>` is modelled as a
`Finset ℕ`; the `u32` position counter is tracked as a natural number reduced
modulo `2 ^ 32` at each increment, matching wrapping `u32` arithmetic.
-/

set_option maxHeartbeats 1000000

/-- A fasta record as held by `fasta::Record`: header text and sequence. -/
structure FastaRecord where
  header : List Char
  seq : List Char

/-- A fastq record as held by `fastq::Record`: header, sequence and quality. -/
structure FastqRecord where
  header : List Char
  seq : List Char
  qual : List Char

/-- Modelled from the spec: the `Display` rendering of a fasta record used by
`write!(write_to, "{}", record)` lives in the external parsing library, not in
`src/`; per the spec a fasta record renders as the exact text
`>{header}\n{sequence}\n`. -/
def FastaRecord.render (r : FastaRecord) : List Char :=
  '>' :: (r.header ++ '\n' :: (r.seq ++ ['\n']))

/-- Modelled from the spec: the `Display` rendering of a fastq record used by
`write!(write_to, "{}", record)` lives in the external parsing library, not in
`src/`; per the spec a fastq record renders as the exact text
`@{header}\n{sequence}\n+\n{quality}\n`. -/
def FastqRecord.render (r : FastqRecord) : List Char :=
  '@' :: (r.header ++ '\n' :: (r.seq ++ '\n' :: '+' :: '\n' :: (r.qual ++ ['\n'])))

/-- One pull of the underlying record reader: a successfully parsed record or
a parse failure (`reader.read(..)` / `reader.next()` returning an error). -/
inductive ReadItem (α : Type) where
  | good (r : α)
  | bad

/-- The observable outcome of `Fastx::filter_reads_into`.  `ok` is `Ok(())`,
`indicesNotFound` is `Err(FastxError::IndicesNotFound)`, and `panicked` is the
process abort produced by `.expect("Failed to parse record")` on a parse
failure. -/
inductive Outcome where
  | ok
  | indicesNotFound
  | panicked
  deriving DecidableEq

/-- The scan loop of `Fastx::filter_reads_into` (both the fasta and the fastq
arm have this exact shape; they differ only in the record type and its
rendering).  State: remaining stream, current wanted set `reads_to_keep`,
current position `i` (a `u32`, hence the reduction modulo `2 ^ 32`), and the
characters written to the sink so far.  Returns the outcome, the final sink
contents and the final wanted set. -/
def filterLoop {α : Type} (render : α → List Char) :
    List (ReadItem α) → Finset ℕ → ℕ → List Char → Outcome × List Char × Finset ℕ
  | [], w, _, out => (if w = ∅ then Outcome.ok else Outcome.indicesNotFound, out, w)
  | ReadItem.bad :: _, w, _, out => (Outcome.panicked, out, w)
  | ReadItem.good r :: rest, w, i, out =>
    let w2 := if i ∈ w then w.erase i else w
    let out2 := if i ∈ w then out ++ render r else out
    if w2 = ∅ then (Outcome.ok, out2, w2)
    else filterLoop render rest w2 ((i + 1) % 2 ^ 32) out2

/-- `Fastx::filter_reads_into`, generic over the record type and its
rendering: start at position `0` with an empty sink. -/
def filter_reads_into {α : Type} (render : α → List Char) (stream : List (ReadItem α))
    (reads_to_keep : Finset ℕ) : Outcome × List Char × Finset ℕ :=
  filterLoop render stream reads_to_keep 0 []

/-- The `FileType::Fasta` arm of `Fastx::filter_reads_into`. -/
def Fastx.filter_reads_into_fasta (stream : List (ReadItem FastaRecord))
    (reads_to_keep : Finset ℕ) : Outcome × List Char × Finset ℕ :=
  filter_reads_into FastaRecord.render stream reads_to_keep

/-- The `FileType::Fastq` arm of `Fastx::filter_reads_into`. -/
def Fastx.filter_reads_into_fastq (stream : List (ReadItem FastqRecord))
    (reads_to_keep : Finset ℕ) : Outcome × List Char × Finset ℕ :=
  filter_reads_into FastqRecord.render stream reads_to_keep

/-- `Fastx::read_lengths`, generic over the record type: walk the stream to
exhaustion pushing `rec.num_bases() as u32` (hence the reduction modulo
`2 ^ 32`) for each record, in encounter order; a parse failure returns
`Err(FastxError::ParseError)` immediately, discarding the collected vector. -/
def read_lengths {α : Type} (numBases : α → ℕ) : List (ReadItem α) → Except Unit (List ℕ)
  | [] => Except.ok []
  | ReadItem.bad :: _ => Except.error ()
  | ReadItem.good r :: rest =>
    (read_lengths numBases rest).map (fun ls => numBases r % 2 ^ 32 :: ls)

/-- `Fastx::read_lengths` on a fasta stream (`num_bases` is the sequence
length). -/
def Fastx.read_lengths_fasta (stream : List (ReadItem FastaRecord)) : Except Unit (List ℕ) :=
  read_lengths (fun r => r.seq.length) stream

/-- `Fastx::read_lengths` on a fastq stream (`num_bases` is the sequence
length). -/
def Fastx.read_lengths_fastq (stream : List (ReadItem FastqRecord)) : Except Unit (List ℕ) :=
  read_lengths (fun r => r.seq.length) stream

/-- Specification-side description of the sink contents: the concatenated
renderings of exactly those records whose position (starting at `i`) lies in
the wanted set `w`. -/
def matchedOut {α : Type} (render : α → List Char) :
    List α → Finset ℕ → ℕ → List Char
  | [], _, _ => []
  | r :: rest, w, i =>
    (if i ∈ w then render r else []) ++ matchedOut render rest w (i + 1)

/-- Concatenation of a list of character chunks. -/
def concatAll : List (List Char) → List Char
  | [] => []
  | s :: rest => s ++ concatAll rest

/-- The file format derived from a path, as in `FileType`. -/
inductive FileType where
  | Fasta
  | Fastq
  deriving DecidableEq

/-- A path, modelled as its character string. -/
abbrev PathStr := List Char

/-- Modelled from the spec: `FileType::from_path` is not present under `src/`
(only its tests are); per the spec, classification strips a single trailing
recognized compression suffix (`.gz`) to determine `compressed`, then maps the
remaining extension `.fa`/`.fasta` to Fasta and `.fq`/`.fastq` to Fastq; any
other path fails with `UnknownFileType` carrying the full original path
string verbatim.  Pure string inspection; no filesystem access. -/
def FileType.from_path (p : PathStr) : Except PathStr (FileType × Bool) :=
  let comp := (".gz").toList.isSuffixOf p
  let stem := if comp then p.take (p.length - 3) else p
  if (".fa").toList.isSuffixOf stem || (".fasta").toList.isSuffixOf stem then
    Except.ok (FileType.Fasta, comp)
  else if (".fq").toList.isSuffixOf stem || (".fastq").toList.isSuffixOf stem then
    Except.ok (FileType.Fastq, comp)
  else Except.error p

/-- Whether a path carries a recognized fasta/fastq extension (after stripping
one trailing `.gz`); the success condition of `FileType.from_path`. -/
def recognizedFastx (p : PathStr) : Bool :=
  let comp := (".gz").toList.isSuffixOf p
  let stem := if comp then p.take (p.length - 3) else p
  (".fa").toList.isSuffixOf stem || (".fasta").toList.isSuffixOf stem ||
    (".fq").toList.isSuffixOf stem || (".fastq").toList.isSuffixOf stem

/-- Sample record (from the repository's own tests). -/
def sampleRead1 : FastaRecord :=
  { header := ("read1 length=4").toList, seq := ("ACGT").toList }

/-- Sample record (from the repository's own tests). -/
def sampleRead2 : FastaRecord :=
  { header := ("read2").toList, seq := ("CCCC").toList }

/-- Sample fastq record (from the repository's own tests). -/
def sampleFq1 : FastqRecord :=
  { header := ("read1").toList, seq := ("ACGT").toList, qual := ("!!!!").toList }

/-- Sample fastq record (from the repository's own tests). -/
def sampleFq2 : FastqRecord :=
  { header := ("read2").toList, seq := ("CCCC").toList, qual := ("$$$$").toList }

/-- Every element of a wanted set below the current position never matches. -/
theorem matchedOut_eq_nil {α : Type} (render : α → List Char) :
    ∀ (rs : List α) (w : Finset ℕ) (i : ℕ), (∀ p ∈ w, p < i) →
      matchedOut render rs w i = [] := by
  intro rs
  induction rs with
  | nil => intro w i _; rfl
  | cons r rest ih =>
    intro w i h
    have hiw : i ∉ w := fun hm => lt_irrefl i (h i hm)
    simp only [matchedOut, hiw, if_false, List.nil_append]
    exact ih w (i + 1) (fun p hp => Nat.lt_succ_of_lt (h p hp))

/-- Erasing an index strictly below the scan front does not change the
matched output. -/
theorem matchedOut_erase {α : Type} (render : α → List Char) :
    ∀ (rs : List α) (w : Finset ℕ) (k i : ℕ), k < i →
      matchedOut render rs (w.erase k) i = matchedOut render rs w i := by
  intro rs
  induction rs with
  | nil => intro w k i _; rfl
  | cons r rest ih =>
    intro w k i hk
    have hne : i ≠ k := Nat.ne_of_gt hk
    simp [matchedOut, Finset.mem_erase, hne, ih w k (i + 1) (Nat.lt_succ_of_lt hk)]

/-- When every scanned position is wanted, the matched output is the full
concatenation of renderings. -/
theorem matchedOut_full {α : Type} (render : α → List Char) :
    ∀ (rs : List α) (w : Finset ℕ) (i : ℕ),
      (∀ p, i ≤ p → p < i + rs.length → p ∈ w) →
      matchedOut render rs w i = concatAll (rs.map render) := by
  intro rs
  induction rs with
  | nil => intro w i _; rfl
  | cons r rest ih =>
    intro w i h
    have hiw : i ∈ w := h i (le_refl i) (by simp)
    simp only [matchedOut, hiw, if_true, List.map_cons, concatAll]
    rw [ih w (i + 1) (fun p h1 h2 => h p (by omega) (by simp at h2 ⊢; omega))]

/-- If the wanted set has only the element `i`, the whole scanned interval
from `i` is removed. -/
theorem sdiff_Ico_empty_of_all_eq (w : Finset ℕ) (i m : ℕ) (h : ∀ p ∈ w, p = i) :
    w \ Finset.Ico i (i + (m + 1)) = ∅ := by
  ext x
  simp only [Finset.mem_sdiff, Finset.mem_Ico, Finset.not_mem_empty, iff_false]
  rintro ⟨hx, hni⟩
  exact hni (by have := h x hx; omega)

/-- If the erased set is empty, every element of the set is the erased one. -/
theorem erase_empty_all_eq (w : Finset ℕ) (i : ℕ) (h : w.erase i = ∅) :
    ∀ p ∈ w, p = i := by
  intro p hp
  by_contra hne
  have hmem : p ∈ w.erase i := Finset.mem_erase.mpr ⟨hne, hp⟩
  rw [h] at hmem
  exact absurd hmem (Finset.not_mem_empty p)

/-- Removing a matched index and then the rest of the scanned interval is the
same as removing the whole interval. -/
theorem sdiff_Ico_erase (w : Finset ℕ) (i m : ℕ) :
    w.erase i \ Finset.Ico (i + 1) (i + 1 + m) = w \ Finset.Ico i (i + (m + 1)) := by
  ext x
  simp only [Finset.mem_sdiff, Finset.mem_erase, Finset.mem_Ico]
  by_cases hx : x ∈ w <;> simp [hx] <;> omega

/-- When the front position is not wanted, skipping it does not change the
removed interval. -/
theorem sdiff_Ico_not_mem (w : Finset ℕ) (i m : ℕ) (h : i ∉ w) :
    w \ Finset.Ico (i + 1) (i + 1 + m) = w \ Finset.Ico i (i + (m + 1)) := by
  ext x
  simp only [Finset.mem_sdiff, Finset.mem_Ico]
  by_cases hx : x ∈ w
  · have hne : x ≠ i := fun he => h (he ▸ hx)
    simp only [hx, true_and]
    omega
  · simp [hx]

/-- Full characterization of the scan loop on a well-formed (parse-error free)
stream: the outcome is success exactly when the wanted set is exhausted, the
sink receives the renderings of exactly the wanted positions in order, and the
final wanted set is the initial one minus the scanned interval. -/
theorem filterLoop_goods {α : Type} (render : α → List Char) :
    ∀ (rs : List α) (w : Finset ℕ) (i : ℕ) (out : List Char),
      i + rs.length ≤ 2 ^ 32 →
      filterLoop render (rs.map ReadItem.good) w i out =
        (if w \ Finset.Ico i (i + rs.length) = ∅ then Outcome.ok
          else Outcome.indicesNotFound,
         out ++ matchedOut render rs w i,
         w \ Finset.Ico i (i + rs.length)) := by
  intro rs
  induction rs with
  | nil =>
    intro w i out _
    simp [filterLoop, matchedOut, Finset.Ico_self]
  | cons r rest ih =>
    intro w i out h
    have harith : i + (r :: rest).length = i + (rest.length + 1) := by simp
    by_cases hiw : i ∈ w
    · by_cases hw2 : w.erase i = ∅
      · have hall : ∀ p ∈ w, p = i := erase_empty_all_eq w i hw2
        have hset : w \ Finset.Ico i (i + (rest.length + 1)) = ∅ :=
          sdiff_Ico_empty_of_all_eq w i rest.length hall
        have hmo : matchedOut render rest w (i + 1) = [] :=
          matchedOut_eq_nil render rest w (i + 1) (fun p hp => by have := hall p hp; omega)
        simp [filterLoop, matchedOut, hiw, hw2, harith, hset, hmo]
      · have hstep :
            filterLoop render (rest.map ReadItem.good) (w.erase i) ((i + 1) % 2 ^ 32)
              (out ++ render r) =
            filterLoop render (rest.map ReadItem.good) (w.erase i) (i + 1)
              (out ++ render r) := by
          cases rest with
          | nil => rfl
          | cons r2 rest2 =>
            have hlt : i + 1 < 2 ^ 32 := by simp at h; omega
            rw [Nat.mod_eq_of_lt hlt]
        have hrec := ih (w.erase i) (i + 1) (out ++ render r) (by simp at h ⊢; omega)
        simp only [List.map_cons, filterLoop, hiw, if_true, hw2, if_false]
        rw [hstep, hrec, sdiff_Ico_erase w i rest.length,
          matchedOut_erase render rest w i (i + 1) (Nat.lt_succ_self i)]
        simp [matchedOut, hiw, harith]
    · by_cases hw : w = ∅
      · subst hw
        have hmo : matchedOut render rest (∅ : Finset ℕ) (i + 1) = [] :=
          matchedOut_eq_nil render rest ∅ (i + 1) (by simp)
        simp [filterLoop, matchedOut, hmo]
      · have hstep :
            filterLoop render (rest.map ReadItem.good) w ((i + 1) % 2 ^ 32) out =
            filterLoop render (rest.map ReadItem.good) w (i + 1) out := by
          cases rest with
          | nil => rfl
          | cons r2 rest2 =>
            have hlt : i + 1 < 2 ^ 32 := by simp at h; omega
            rw [Nat.mod_eq_of_lt hlt]
        have hrec := ih w (i + 1) out (by simp at h ⊢; omega)
        simp only [List.map_cons, filterLoop, hiw, if_false, hw]
        rw [hstep, hrec, sdiff_Ico_not_mem w i rest.length hiw]
        simp [matchedOut, hiw, harith]

/-- Full characterization of the scan loop when it reaches a parse failure:
if the records before the failing read do not exhaust the wanted set (or
there are none, in which case the unconditional first read hits the failure),
the call panics via `.expect`, with every record matched so far already
written to the sink. -/
theorem filterLoop_panic {α : Type} (render : α → List Char) :
    ∀ (rs : List α) (w : Finset ℕ) (i : ℕ) (out : List Char) (tail : List (ReadItem α)),
      i + rs.length ≤ 2 ^ 32 →
      (rs = [] ∨ w \ Finset.Ico i (i + rs.length) ≠ ∅) →
      filterLoop render (rs.map ReadItem.good ++ ReadItem.bad :: tail) w i out =
        (Outcome.panicked, out ++ matchedOut render rs w i,
         w \ Finset.Ico i (i + rs.length)) := by
  intro rs
  induction rs with
  | nil =>
    intro w i out tail _ _
    simp [filterLoop, matchedOut, Finset.Ico_self]
  | cons r rest ih =>
    intro w i out tail h hd
    have hne : w \ Finset.Ico i (i + (rest.length + 1)) ≠ ∅ := by
      rcases hd with h1 | h2
      · exact absurd h1 (List.cons_ne_nil r rest)
      · simpa using h2
    by_cases hiw : i ∈ w
    · have hw2 : ¬w.erase i = ∅ := by
        intro he
        exact hne (sdiff_Ico_empty_of_all_eq w i rest.length (erase_empty_all_eq w i he))
      have hstep :
          filterLoop render (rest.map ReadItem.good ++ ReadItem.bad :: tail) (w.erase i)
            ((i + 1) % 2 ^ 32) (out ++ render r) =
          filterLoop render (rest.map ReadItem.good ++ ReadItem.bad :: tail) (w.erase i)
            (i + 1) (out ++ render r) := by
        cases rest with
        | nil => rfl
        | cons r2 rest2 =>
          have hlt : i + 1 < 2 ^ 32 := by simp at h; omega
          rw [Nat.mod_eq_of_lt hlt]
      have hd2 : rest = [] ∨ w.erase i \ Finset.Ico (i + 1) (i + 1 + rest.length) ≠ ∅ := by
        right
        rw [sdiff_Ico_erase w i rest.length]
        exact hne
      have hrec := ih (w.erase i) (i + 1) (out ++ render r) tail (by simp at h ⊢; omega) hd2
      simp only [List.map_cons, List.cons_append, List.append_eq, filterLoop, hiw, if_true,
        hw2, if_false]
      rw [hstep, hrec, sdiff_Ico_erase w i rest.length,
        matchedOut_erase render rest w i (i + 1) (Nat.lt_succ_self i)]
      simp [matchedOut, hiw]
    · have hw : ¬w = ∅ := by
        intro he
        subst he
        simp at hne
      have hstep :
          filterLoop render (rest.map ReadItem.good ++ ReadItem.bad :: tail) w
            ((i + 1) % 2 ^ 32) out =
          filterLoop render (rest.map ReadItem.good ++ ReadItem.bad :: tail) w
            (i + 1) out := by
        cases rest with
        | nil => rfl
        | cons r2 rest2 =>
          have hlt : i + 1 < 2 ^ 32 := by simp at h; omega
          rw [Nat.mod_eq_of_lt hlt]
      have hd2 : rest = [] ∨ w \ Finset.Ico (i + 1) (i + 1 + rest.length) ≠ ∅ := by
        right
        rw [sdiff_Ico_not_mem w i rest.length hiw]
        exact hne
      have hrec := ih w (i + 1) out tail (by simp at h ⊢; omega) hd2
      simp only [List.map_cons, List.cons_append, List.append_eq, filterLoop, hiw, if_false, hw]
      rw [hstep, hrec, sdiff_Ico_not_mem w i rest.length hiw]
      simp [matchedOut, hiw]

/-- A successful outcome is only ever returned with an exhausted wanted set. -/
theorem filterLoop_ok_final_empty {α : Type} (render : α → List Char) :
    ∀ (stream : List (ReadItem α)) (w : Finset ℕ) (i : ℕ) (out : List Char),
      (filterLoop render stream w i out).1 = Outcome.ok →
      (filterLoop render stream w i out).2.2 = ∅ := by
  intro stream
  induction stream with
  | nil =>
    intro w i out h
    by_cases hw : w = ∅
    · simp [filterLoop, hw]
    · simp [filterLoop, hw] at h
  | cons item rest ih =>
    intro w i out h
    cases item with
    | bad => simp [filterLoop] at h
    | good r =>
      by_cases h2 : (if i ∈ w then w.erase i else w) = ∅
      · simp [filterLoop, h2]
      · simp only [filterLoop, h2, if_false] at h ⊢
        exact ih _ _ _ h

/-- The position counter is a `u32`, so an index at or above `2 ^ 32` can
never be matched: it survives in the wanted set to the end of any scan. -/
theorem filterLoop_large_index_mem {α : Type} (render : α → List Char) :
    ∀ (stream : List (ReadItem α)) (w : Finset ℕ) (i : ℕ) (out : List Char) (x : ℕ),
      x ∈ w → 2 ^ 32 ≤ x → i < 2 ^ 32 →
      x ∈ (filterLoop render stream w i out).2.2 := by
  intro stream
  induction stream with
  | nil =>
    intro w i out x hx _ _
    simpa [filterLoop] using hx
  | cons item rest ih =>
    intro w i out x hx hge hi
    cases item with
    | bad => simpa [filterLoop] using hx
    | good r =>
      have hxne : x ≠ i := by omega
      have hx2 : x ∈ (if i ∈ w then w.erase i else w) := by
        by_cases hiw : i ∈ w
        · simp only [hiw, if_true]
          exact Finset.mem_erase.mpr ⟨hxne, hx⟩
        · simpa [hiw] using hx
      have h2 : ¬(if i ∈ w then w.erase i else w) = ∅ := by
        intro he
        rw [he] at hx2
        exact absurd hx2 (Finset.not_mem_empty x)
      simp only [filterLoop, h2, if_false]
      exact ih _ _ _ x hx2 hge (Nat.mod_lt _ (by norm_num))

/-- The wanted set only ever shrinks across the scan. -/
theorem filterLoop_final_subset {α : Type} (render : α → List Char) :
    ∀ (stream : List (ReadItem α)) (w : Finset ℕ) (i : ℕ) (out : List Char),
      (filterLoop render stream w i out).2.2 ⊆ w := by
  intro stream
  induction stream with
  | nil =>
    intro w i out
    simp [filterLoop]
  | cons item rest ih =>
    intro w i out
    cases item with
    | bad => simp [filterLoop]
    | good r =>
      by_cases h2 : (if i ∈ w then w.erase i else w) = ∅
      · simp [filterLoop, h2]
      · simp only [filterLoop, h2, if_false]
        refine (ih _ _ _).trans ?_
        by_cases hiw : i ∈ w
        · simp only [hiw, if_true]
          exact Finset.erase_subset i w
        · simp [hiw]

/-- `read_lengths` on a well-formed stream collects every length in order. -/
theorem read_lengths_goods {α : Type} (numBases : α → ℕ) :
    ∀ rs : List α, read_lengths numBases (rs.map ReadItem.good) =
      Except.ok (rs.map (fun r => numBases r % 2 ^ 32)) := by
  intro rs
  induction rs with
  | nil => rfl
  | cons r rest ih => simp [read_lengths, ih, Except.map]

/-- `read_lengths` hitting a parse failure returns the error, discarding the
lengths collected so far. -/
theorem read_lengths_bad {α : Type} (numBases : α → ℕ) :
    ∀ (pre : List α) (tail : List (ReadItem α)),
      read_lengths numBases (pre.map ReadItem.good ++ ReadItem.bad :: tail) =
        Except.error () := by
  intro pre
  induction pre with
  | nil => intro tail; rfl
  | cons r rest ih =>
    intro tail
    simp [read_lengths, ih tail, Except.map]

/-- An extension test against `s ++ e` fails whenever the candidate and the
known trailing extension `e` are not suffixes of one another. -/
theorem isSuffixOf_append_false {A e : List Char} (s : List Char)
    (h : ¬(A <:+ e ∨ e <:+ A)) : A.isSuffixOf (s ++ e) = false := by
  rw [Bool.eq_false_iff]
  intro hb
  have hsuf : A <:+ s ++ e := List.isSuffixOf_iff_suffix.mp hb
  exact h (List.suffix_or_suffix_of_suffix hsuf (List.suffix_append s e))

/-- A trailing extension always passes its own suffix test. -/
theorem isSuffixOf_append_true (s e : List Char) : e.isSuffixOf (s ++ e) = true :=
  List.isSuffixOf_iff_suffix.mpr (List.suffix_append s e)

/-- Propositional form of `isSuffixOf_append_false`. -/
theorem not_suffix_append {A e : List Char} (s : List Char)
    (h : ¬(A <:+ e ∨ e <:+ A)) : ¬A <:+ s ++ e := fun hsuf =>
  h (List.suffix_or_suffix_of_suffix hsuf (List.suffix_append s e))

/-- Classification of a path ending in `.gz` reduces to classifying the path
with the compression suffix stripped, with `compressed = true`. -/
theorem from_path_gz_reduce (s e : List Char) :
    FileType.from_path ((s ++ e) ++ (".gz").toList) =
      (if (".fa").toList.isSuffixOf (s ++ e) || (".fasta").toList.isSuffixOf (s ++ e) then
        Except.ok (FileType.Fasta, true)
       else if (".fq").toList.isSuffixOf (s ++ e) || (".fastq").toList.isSuffixOf (s ++ e) then
        Except.ok (FileType.Fastq, true)
       else Except.error ((s ++ e) ++ (".gz").toList)) := by
  have hgz := isSuffixOf_append_true (s ++ e) ((".gz").toList)
  have htake : ((s ++ e) ++ (".gz").toList).take (((s ++ e) ++ (".gz").toList).length - 3) =
      s ++ e := List.take_left' (by simp; omega)
  simp only [FileType.from_path, hgz, if_true, htake]

/-- C1: on a well-formed input stream, `filter_reads_into` returns success
exactly when the wanted set is empty once the scan loop ends (by exhaustion
or early stop), and returns `IndicesNotFound` otherwise; the sink always
holds exactly the renderings of the matched positions, so in the failure case
every record matched before the end remains written — in particular one
in-range plus one out-of-range index yields `IndicesNotFound` with the sink
holding exactly the in-range record. -/
theorem filter_success_iff_wanted_emptied {α : Type} (render : α → List Char)
    (rs : List α) (w : Finset ℕ) (hn : rs.length ≤ 2 ^ 32) :
    ((filter_reads_into render (rs.map ReadItem.good) w).1 = Outcome.ok ↔
      (filter_reads_into render (rs.map ReadItem.good) w).2.2 = ∅) ∧
    ((filter_reads_into render (rs.map ReadItem.good) w).1 = Outcome.indicesNotFound ↔
      (filter_reads_into render (rs.map ReadItem.good) w).2.2 ≠ ∅) ∧
    (filter_reads_into render (rs.map ReadItem.good) w).2.1 = matchedOut render rs w 0 ∧
    (filter_reads_into render (rs.map ReadItem.good) w).2.2 = w \ Finset.Ico 0 rs.length ∧
    Fastx.filter_reads_into_fasta
        [ReadItem.good sampleRead1, ReadItem.good sampleRead2] {0, 2} =
      (Outcome.indicesNotFound, (">read1 length=4\nACGT\n").toList, {2}) := by
  have hmain : filter_reads_into render (rs.map ReadItem.good) w =
      (if w \ Finset.Ico 0 rs.length = ∅ then Outcome.ok else Outcome.indicesNotFound,
       matchedOut render rs w 0, w \ Finset.Ico 0 rs.length) := by
    have h := filterLoop_goods render rs w 0 [] (by omega)
    simpa [filter_reads_into] using h
  refine ⟨?_, ?_, by rw [hmain], by rw [hmain], by decide⟩
  · rw [hmain]
    by_cases hc : w \ Finset.Ico 0 rs.length = ∅ <;> simp [hc]
  · rw [hmain]
    by_cases hc : w \ Finset.Ico 0 rs.length = ∅ <;> simp [hc]

/-- Witness for C1 at a concrete input. -/
theorem filter_success_iff_wanted_emptied_witness :
    (filter_reads_into FastaRecord.render ([sampleRead1].map ReadItem.good) {0}).2.1 =
      matchedOut FastaRecord.render [sampleRead1] {0} 0 :=
  (filter_success_iff_wanted_emptied FastaRecord.render [sampleRead1] {0}
    (by norm_num)).2.2.1

/-- C2 counterexample: a record that fails to parse makes `filter_reads_into`
panic (the `.expect` process abort), not return a `ParseError` result: at a
concrete input with a malformed second record the outcome is `panicked`,
distinct from both return values, while the already matched first record
remains in the sink. -/
theorem filter_parse_failure_counterexample :
    Fastx.filter_reads_into_fasta [ReadItem.good sampleRead1, ReadItem.bad] {0, 1} =
      (Outcome.panicked, (">read1 length=4\nACGT\n").toList, {1}) ∧
    Outcome.panicked ≠ Outcome.ok ∧ Outcome.panicked ≠ Outcome.indicesNotFound :=
  ⟨by decide, by decide, by decide⟩

/-- C2 (amended): when the scan reaches a record that fails to parse, the
call panics via `.expect` (a process abort) instead of returning a
`ParseError` value; records matched before the failure remain written — the
sink holds exactly the renderings of the positions matched so far. -/
theorem filter_panics_on_parse_failure {α : Type} (render : α → List Char)
    (rs : List α) (w : Finset ℕ) (tail : List (ReadItem α))
    (hn : rs.length ≤ 2 ^ 32)
    (hreach : rs = [] ∨ w \ Finset.Ico 0 rs.length ≠ ∅) :
    filter_reads_into render (rs.map ReadItem.good ++ ReadItem.bad :: tail) w =
      (Outcome.panicked, matchedOut render rs w 0, w \ Finset.Ico 0 rs.length) := by
  have h := filterLoop_panic render rs w 0 [] tail (by omega) (by simpa using hreach)
  simpa [filter_reads_into] using h

/-- Witness for the amended C2 at a concrete input. -/
theorem filter_panics_on_parse_failure_witness :
    filter_reads_into FastaRecord.render
        ([sampleRead1].map ReadItem.good ++ ReadItem.bad :: []) {0, 1} =
      (Outcome.panicked, matchedOut FastaRecord.render [sampleRead1] {0, 1} 0,
       {0, 1} \ Finset.Ico 0 1) :=
  filter_panics_on_parse_failure FastaRecord.render [sampleRead1] {0, 1} []
    (by norm_num) (Or.inr (by decide))

/-- Filtering with the full position range succeeds and reproduces every
record, in order. -/
theorem filter_full_range {α : Type} (render : α → List Char) (rs : List α)
    (hn : rs.length ≤ 2 ^ 32) :
    filter_reads_into render (rs.map ReadItem.good) (Finset.range rs.length) =
      (Outcome.ok, concatAll (rs.map render), ∅) := by
  have h := filterLoop_goods render rs (Finset.range rs.length) 0 [] (by omega)
  have hset : Finset.range rs.length \ Finset.Ico 0 (0 + rs.length) = ∅ := by
    rw [Nat.zero_add, Finset.range_eq_Ico, Finset.sdiff_self]
  have hmo := matchedOut_full render rs (Finset.range rs.length) 0
    (fun p h1 h2 => Finset.mem_range.mpr (by omega))
  simp only [filter_reads_into]
  rw [h, hset, hmo]
  simp

/-- C3: filtering an n-record well-formed file with the full wanted set
`{0, …, n-1}` succeeds and writes all records to the sink in original order
and exact text, a fasta record rendering as `>{header}\n{sequence}\n` and a
fastq record as `@{header}\n{sequence}\n+\n{quality}\n`. -/
theorem filter_full_range_roundtrip :
    (∀ rs : List FastaRecord, rs.length ≤ 2 ^ 32 →
      Fastx.filter_reads_into_fasta (rs.map ReadItem.good) (Finset.range rs.length) =
        (Outcome.ok, concatAll (rs.map FastaRecord.render), ∅)) ∧
    (∀ rs : List FastqRecord, rs.length ≤ 2 ^ 32 →
      Fastx.filter_reads_into_fastq (rs.map ReadItem.good) (Finset.range rs.length) =
        (Outcome.ok, concatAll (rs.map FastqRecord.render), ∅)) ∧
    (∀ h s : List Char, FastaRecord.render { header := h, seq := s } =
      '>' :: (h ++ '\n' :: (s ++ ['\n']))) ∧
    (∀ h s q : List Char, FastqRecord.render { header := h, seq := s, qual := q } =
      '@' :: (h ++ '\n' :: (s ++ '\n' :: '+' :: '\n' :: (q ++ ['\n'])))) :=
  ⟨fun rs hn => filter_full_range FastaRecord.render rs hn,
   fun rs hn => filter_full_range FastqRecord.render rs hn,
   fun _ _ => rfl, fun _ _ _ => rfl⟩

/-- Witness for C3 at a concrete two-record input. -/
theorem filter_full_range_roundtrip_witness :
    Fastx.filter_reads_into_fasta ([sampleRead1, sampleRead2].map ReadItem.good)
        (Finset.range 2) =
      (Outcome.ok, concatAll ([sampleRead1, sampleRead2].map FastaRecord.render), ∅) :=
  filter_full_range_roundtrip.1 [sampleRead1, sampleRead2] (by norm_num)

/-- C4 counterexample: with an empty wanted set the reader IS touched — the
first record is read before the emptiness check — so on an input whose first
record is malformed the call panics instead of returning success. -/
theorem filter_empty_wanted_counterexample :
    Fastx.filter_reads_into_fasta [ReadItem.bad] (∅ : Finset ℕ) =
      (Outcome.panicked, [], ∅) ∧ Outcome.panicked ≠ Outcome.ok :=
  ⟨by decide, by decide⟩

/-- C4 (amended): an empty wanted set yields success with zero bytes written
whenever the first read does not hit a parse failure (empty file, or a
parseable first record): the code still opens the file and reads one record
before the emptiness check stops the scan. -/
theorem filter_empty_wanted_success {α : Type} (render : α → List Char)
    (stream : List (ReadItem α))
    (hfirst : stream = [] ∨ ∃ r rest, stream = ReadItem.good r :: rest) :
    filter_reads_into render stream ∅ = (Outcome.ok, [], ∅) := by
  rcases hfirst with h | ⟨r, rest, h⟩ <;> subst h <;> simp [filter_reads_into, filterLoop]

/-- Witness for the amended C4 at a concrete input. -/
theorem filter_empty_wanted_success_witness :
    filter_reads_into FastaRecord.render [ReadItem.good sampleRead1] ∅ =
      (Outcome.ok, [], ∅) :=
  filter_empty_wanted_success FastaRecord.render [ReadItem.good sampleRead1]
    (Or.inr ⟨sampleRead1, [], rfl⟩)

/-- C5: an empty input file (zero records) with any non-empty wanted set
writes nothing to the sink and returns `IndicesNotFound`. -/
theorem filter_empty_input_not_found {α : Type} (render : α → List Char)
    (w : Finset ℕ) (hw : w ≠ ∅) :
    filter_reads_into render ([] : List (ReadItem α)) w =
      (Outcome.indicesNotFound, [], w) := by
  simp [filter_reads_into, filterLoop, hw]

/-- Witness for C5 at a concrete wanted set. -/
theorem filter_empty_input_not_found_witness :
    filter_reads_into FastaRecord.render ([] : List (ReadItem FastaRecord)) {5} =
      (Outcome.indicesNotFound, [], {5}) :=
  filter_empty_input_not_found FastaRecord.render {5} (by decide)

/-- C6: path classification is a pure function of the path string: `.fa` and
`.fasta` classify as Fasta, `.fq` and `.fastq` as Fastq, each optionally
followed by a trailing `.gz` giving the same format with
`compressed = true`; every other path — including the empty path and paths
with no recognized extension — fails with the error carrying the full
original path string verbatim. -/
theorem from_path_classification :
    (∀ s : List Char, FileType.from_path (s ++ (".fa").toList) =
      Except.ok (FileType.Fasta, false)) ∧
    (∀ s : List Char, FileType.from_path (s ++ (".fasta").toList) =
      Except.ok (FileType.Fasta, false)) ∧
    (∀ s : List Char, FileType.from_path (s ++ (".fq").toList) =
      Except.ok (FileType.Fastq, false)) ∧
    (∀ s : List Char, FileType.from_path (s ++ (".fastq").toList) =
      Except.ok (FileType.Fastq, false)) ∧
    (∀ s : List Char, FileType.from_path (s ++ (".fa.gz").toList) =
      Except.ok (FileType.Fasta, true)) ∧
    (∀ s : List Char, FileType.from_path (s ++ (".fasta.gz").toList) =
      Except.ok (FileType.Fasta, true)) ∧
    (∀ s : List Char, FileType.from_path (s ++ (".fq.gz").toList) =
      Except.ok (FileType.Fastq, true)) ∧
    (∀ s : List Char, FileType.from_path (s ++ (".fastq.gz").toList) =
      Except.ok (FileType.Fastq, true)) ∧
    (∀ p : PathStr, recognizedFastx p = false → FileType.from_path p = Except.error p) ∧
    (∀ p x : PathStr, FileType.from_path p = Except.error x → x = p) ∧
    FileType.from_path [] = Except.error [] ∧
    FileType.from_path (("data/fq").toList) = Except.error (("data/fq").toList) ∧
    FileType.from_path (("data/in.bam").toList) =
      Except.error (("data/in.bam").toList) := by
  refine ⟨?_, ?_, ?_, ?_, ?_, ?_, ?_, ?_, ?_, ?_, rfl, rfl, rfl⟩
  · intro s
    have hgzB : (['.', 'g', 'z'].isSuffixOf (s ++ ['.', 'f', 'a'])) = false :=
      isSuffixOf_append_false s (by decide)
    have hgzP : ¬['.', 'g', 'z'] <:+ s ++ ['.', 'f', 'a'] := not_suffix_append s (by decide)
    show FileType.from_path (s ++ ['.', 'f', 'a']) = Except.ok (FileType.Fasta, false)
    simp [FileType.from_path, hgzB, hgzP]
  · intro s
    have hgzB : (['.', 'g', 'z'].isSuffixOf (s ++ ['.', 'f', 'a', 's', 't', 'a'])) = false :=
      isSuffixOf_append_false s (by decide)
    have hgzP : ¬['.', 'g', 'z'] <:+ s ++ ['.', 'f', 'a', 's', 't', 'a'] :=
      not_suffix_append s (by decide)
    show FileType.from_path (s ++ ['.', 'f', 'a', 's', 't', 'a']) =
      Except.ok (FileType.Fasta, false)
    simp [FileType.from_path, hgzB, hgzP]
  · intro s
    have hgzB : (['.', 'g', 'z'].isSuffixOf (s ++ ['.', 'f', 'q'])) = false :=
      isSuffixOf_append_false s (by decide)
    have hgzP : ¬['.', 'g', 'z'] <:+ s ++ ['.', 'f', 'q'] := not_suffix_append s (by decide)
    have hfaP : ¬['.', 'f', 'a'] <:+ s ++ ['.', 'f', 'q'] := not_suffix_append s (by decide)
    have hfastaP : ¬['.', 'f', 'a', 's', 't', 'a'] <:+ s ++ ['.', 'f', 'q'] :=
      not_suffix_append s (by decide)
    show FileType.from_path (s ++ ['.', 'f', 'q']) = Except.ok (FileType.Fastq, false)
    simp [FileType.from_path, hgzB, hgzP, hfaP, hfastaP]
  · intro s
    have hgzB : (['.', 'g', 'z'].isSuffixOf (s ++ ['.', 'f', 'a', 's', 't', 'q'])) = false :=
      isSuffixOf_append_false s (by decide)
    have hgzP : ¬['.', 'g', 'z'] <:+ s ++ ['.', 'f', 'a', 's', 't', 'q'] :=
      not_suffix_append s (by decide)
    have hfaP : ¬['.', 'f', 'a'] <:+ s ++ ['.', 'f', 'a', 's', 't', 'q'] :=
      not_suffix_append s (by decide)
    have hfastaP : ¬['.', 'f', 'a', 's', 't', 'a'] <:+ s ++ ['.', 'f', 'a', 's', 't', 'q'] :=
      not_suffix_append s (by decide)
    show FileType.from_path (s ++ ['.', 'f', 'a', 's', 't', 'q']) =
      Except.ok (FileType.Fastq, false)
    simp [FileType.from_path, hgzB, hgzP, hfaP, hfastaP]
  · intro s
    have hcat : (".fa.gz").toList = (".fa").toList ++ (".gz").toList := by decide
    rw [show s ++ (".fa.gz").toList = (s ++ (".fa").toList) ++ (".gz").toList by
          rw [hcat, List.append_assoc],
        from_path_gz_reduce s ((".fa").toList)]
    simp
  · intro s
    have hcat : (".fasta.gz").toList = (".fasta").toList ++ (".gz").toList := by decide
    rw [show s ++ (".fasta.gz").toList = (s ++ (".fasta").toList) ++ (".gz").toList by
          rw [hcat, List.append_assoc],
        from_path_gz_reduce s ((".fasta").toList)]
    simp
  · intro s
    have hcat : (".fq.gz").toList = (".fq").toList ++ (".gz").toList := by decide
    rw [show s ++ (".fq.gz").toList = (s ++ (".fq").toList) ++ (".gz").toList by
          rw [hcat, List.append_assoc],
        from_path_gz_reduce s ((".fq").toList)]
    have hfaP : ¬['.', 'f', 'a'] <:+ s ++ ['.', 'f', 'q'] := not_suffix_append s (by decide)
    have hfastaP : ¬['.', 'f', 'a', 's', 't', 'a'] <:+ s ++ ['.', 'f', 'q'] :=
      not_suffix_append s (by decide)
    simp [hfaP, hfastaP]
  · intro s
    have hcat : (".fastq.gz").toList = (".fastq").toList ++ (".gz").toList := by decide
    rw [show s ++ (".fastq.gz").toList = (s ++ (".fastq").toList) ++ (".gz").toList by
          rw [hcat, List.append_assoc],
        from_path_gz_reduce s ((".fastq").toList)]
    have hfaP : ¬['.', 'f', 'a'] <:+ s ++ ['.', 'f', 'a', 's', 't', 'q'] :=
      not_suffix_append s (by decide)
    have hfastaP : ¬['.', 'f', 'a', 's', 't', 'a'] <:+ s ++ ['.', 'f', 'a', 's', 't', 'q'] :=
      not_suffix_append s (by decide)
    simp [hfaP, hfastaP]
  · intro p h
    simp only [recognizedFastx, Bool.or_eq_false_iff] at h
    obtain ⟨⟨⟨h1, h2⟩, h3⟩, h4⟩ := h
    simp only [FileType.from_path, h1, h2, h3, h4]
    simp
  · intro p x h
    simp only [FileType.from_path] at h
    split at h <;> split at h <;> try split at h
    all_goals simp_all

/-- Witness for C6 at concrete paths. -/
theorem from_path_classification_witness :
    FileType.from_path ((("data/in").toList) ++ (".fa").toList) =
      Except.ok (FileType.Fasta, false) ∧
    FileType.from_path (("x").toList) = Except.error (("x").toList) :=
  ⟨from_path_classification.1 (("data/in").toList),
   from_path_classification.2.2.2.2.2.2.2.2.1 (("x").toList) (by decide)⟩

/-- C7: `read_lengths` walks the stream to exhaustion collecting each
record's sequence length in encounter order (for the records of
`">r1\nACGT\n>r2\nG"` this is `[4, 1]`); a parse failure anywhere aborts
with that error, discarding all lengths collected so far — the operation is
all-or-nothing. -/
theorem read_lengths_spec :
    (∀ rs : List FastaRecord, (∀ r ∈ rs, r.seq.length < 2 ^ 32) →
      Fastx.read_lengths_fasta (rs.map ReadItem.good) =
        Except.ok (rs.map (fun r => r.seq.length))) ∧
    (∀ (pre : List FastaRecord) (tail : List (ReadItem FastaRecord)),
      Fastx.read_lengths_fasta (pre.map ReadItem.good ++ ReadItem.bad :: tail) =
        Except.error ()) ∧
    Fastx.read_lengths_fasta
        [ReadItem.good { header := ("r1").toList, seq := ("ACGT").toList },
         ReadItem.good { header := ("r2").toList, seq := ("G").toList }] =
      Except.ok [4, 1] := by
  refine ⟨?_, ?_, rfl⟩
  · intro rs hb
    show read_lengths (fun r => r.seq.length) (rs.map ReadItem.good) = _
    rw [read_lengths_goods]
    congr 1
    exact List.map_congr_left (fun r hr => Nat.mod_eq_of_lt (hb r hr))
  · intro pre tail
    exact read_lengths_bad (fun r => r.seq.length) pre tail

/-- Witness for C7 at a concrete input. -/
theorem read_lengths_spec_witness :
    Fastx.read_lengths_fasta ([sampleRead1].map ReadItem.good) =
      Except.ok ([sampleRead1].map (fun r => r.seq.length)) :=
  read_lengths_spec.1 [sampleRead1] (by decide)

/-- C8: filtering is deterministic — two runs with equal copies of the same
wanted set on the same input produce byte-identical sink contents and the
same result value. -/
theorem filter_deterministic {α : Type} (render : α → List Char)
    (stream : List (ReadItem α)) (w1 w2 : Finset ℕ) (h : w1 = w2) :
    (filter_reads_into render stream w1).2.1 =
      (filter_reads_into render stream w2).2.1 ∧
    (filter_reads_into render stream w1).1 = (filter_reads_into render stream w2).1 := by
  subst h
  exact ⟨rfl, rfl⟩

/-- Witness for C8 at a concrete input. -/
theorem filter_deterministic_witness :
    (filter_reads_into FastaRecord.render [ReadItem.good sampleRead1] {0}).2.1 =
      (filter_reads_into FastaRecord.render [ReadItem.good sampleRead1] {0}).2.1 :=
  (filter_deterministic FastaRecord.render [ReadItem.good sampleRead1] {0} {0} rfl).1

/-- C9: throughout a call the wanted set only shrinks — the final set is a
subset of the initial one; on a well-formed stream an entry is removed
exactly when the record at that position is matched, the sink holding the
one rendering per matched position; and duplicate requests collapse: a set
built mentioning an index twice behaves identically to mentioning it once. -/
theorem wanted_set_only_shrinks :
    (∀ (α : Type) (render : α → List Char) (stream : List (ReadItem α)) (w : Finset ℕ)
      (i : ℕ) (out : List Char), (filterLoop render stream w i out).2.2 ⊆ w) ∧
    (∀ (α : Type) (render : α → List Char) (rs : List α) (w : Finset ℕ),
      rs.length ≤ 2 ^ 32 →
      (filter_reads_into render (rs.map ReadItem.good) w).2.2 =
        w \ Finset.Ico 0 rs.length ∧
      (filter_reads_into render (rs.map ReadItem.good) w).2.1 = matchedOut render rs w 0) ∧
    (∀ (α : Type) (render : α → List Char) (stream : List (ReadItem α)) (i : ℕ)
      (l : List ℕ),
      filter_reads_into render stream ((i :: i :: l).toFinset) =
        filter_reads_into render stream ((i :: l).toFinset)) := by
  refine ⟨?_, ?_, ?_⟩
  · intro α render stream w i out
    exact filterLoop_final_subset render stream w i out
  · intro α render rs w hn
    have hmain := filterLoop_goods render rs w 0 [] (by omega)
    constructor
    · simpa [filter_reads_into] using congrArg (fun t => t.2.2) hmain
    · simpa [filter_reads_into] using congrArg (fun t => t.2.1) hmain
  · intro α render stream i l
    have hdup : (i :: i :: l).toFinset = (i :: l).toFinset := by
      simp [List.toFinset_cons]
    rw [hdup]

/-- Witness for C9 at a concrete input. -/
theorem wanted_set_only_shrinks_witness :
    (filter_reads_into FastaRecord.render ([sampleRead1].map ReadItem.good) {0}).2.2 =
      ({0} : Finset ℕ) \ Finset.Ico 0 1 :=
  (wanted_set_only_shrinks.2.1 FastaRecord FastaRecord.render [sampleRead1] {0}
    (by norm_num)).1

/-- C10: `read_lengths` stores each base count through an unchecked `as u32`
narrowing, so every reported length is the true sequence length reduced
modulo `2 ^ 32`; and record positions in `filter_reads_into` are 32-bit, so
a wanted index at or above `2 ^ 32` can never be matched — the call never
returns success. -/
theorem u32_narrowing :
    (∀ rs : List FastaRecord, Fastx.read_lengths_fasta (rs.map ReadItem.good) =
      Except.ok (rs.map (fun r => r.seq.length % 2 ^ 32))) ∧
    (∀ rs : List FastqRecord, Fastx.read_lengths_fastq (rs.map ReadItem.good) =
      Except.ok (rs.map (fun r => r.seq.length % 2 ^ 32))) ∧
    (∀ (α : Type) (render : α → List Char) (stream : List (ReadItem α)) (w : Finset ℕ),
      (∃ x ∈ w, 2 ^ 32 ≤ x) → (filter_reads_into render stream w).1 ≠ Outcome.ok) := by
  refine ⟨?_, ?_, ?_⟩
  · intro rs
    exact read_lengths_goods (fun r : FastaRecord => r.seq.length) rs
  · intro rs
    exact read_lengths_goods (fun r : FastqRecord => r.seq.length) rs
  intro α render stream w hx hok
  obtain ⟨x, hxw, hge⟩ := hx
  have h1 := filterLoop_ok_final_empty render stream w 0 [] hok
  have h2 := filterLoop_large_index_mem render stream w 0 [] x hxw hge (by norm_num)
  rw [h1] at h2
  exact absurd h2 (Finset.not_mem_empty x)

/-- Witness for C10 at a concrete out-of-range index. -/
theorem u32_narrowing_witness :
    (filter_reads_into FastaRecord.render ([] : List (ReadItem FastaRecord))
      {4294967296}).1 ≠ Outcome.ok :=
  u32_narrowing.2.2 FastaRecord FastaRecord.render [] {4294967296}
    ⟨4294967296, by decide, by norm_num⟩
